import Mathlib

set_option linter.unusedVariables false

/- Verification of the odd-one-out puzzle generator (src/wordnet.py) and the
curriculum controller (src/multitrain.py).

Synsets are modelled as natural-number indices.  The WordNet noun hierarchy
is a rooted DAG, so its synsets admit a topological numbering in which every
direct hypernym edge leads to a strictly smaller index; the structure field
hyper_lt below records exactly this acyclicity assumption, and hyper_dom
records that every synset carrying edges is one of the n real synsets.
Surface lemmas (tokens) are modelled as lists of characters. -/

/-- Model of Python str.split(sep): splits at every occurrence of the
separator, keeping empty pieces, so that s.split(sep) is never empty. -/
def pySplit (sep : Char) : List Char → List (List Char)
  | [] => [[]]
  | c :: cs =>
    match pySplit sep cs with
    | [] => [[]]
    | g :: gs => if c = sep then [] :: g :: gs else (c :: g) :: gs

/-- Model of Python " ".join: interleaves a single space between pieces. -/
def joinSp : List (List Char) → List Char
  | [] => []
  | g :: gs =>
    match gs with
    | [] => g
    | _ :: _ => g ++ ' ' :: joinSp gs

/-- Model of wordnet.normalize_lemma: every underscore becomes a space
(split on "_", join with " "), then every hyphen becomes a space, then the
result is folded to lowercase. -/
def normalize_lemma (s : List Char) : List Char :=
  (joinSp (pySplit '-' (joinSp (pySplit '_' s)))).map Char.toLower

theorem pySplit_ne_nil (sep : Char) (s : List Char) : pySplit sep s ≠ [] := by
  cases s with
  | nil => simp [pySplit]
  | cons c cs =>
    simp only [pySplit]
    rcases h : pySplit sep cs with _ | ⟨g, gs⟩
    · simp
    · by_cases hc : c = sep <;> simp [hc]

theorem joinSp_cons_cons (c : Char) (g : List Char) (gs : List (List Char)) :
    joinSp ((c :: g) :: gs) = c :: joinSp (g :: gs) := by
  cases gs with
  | nil => rfl
  | cons a l => rfl

theorem joinSp_nil_cons (g : List Char) (gs : List (List Char)) :
    joinSp ([] :: g :: gs) = ' ' :: joinSp (g :: gs) := rfl

/-- Splitting on a separator and rejoining with spaces replaces each
occurrence of the separator by a single space. -/
theorem joinSp_pySplit (sep : Char) (s : List Char) :
    joinSp (pySplit sep s) = s.map (fun c => if c = sep then ' ' else c) := by
  induction s with
  | nil => rfl
  | cons c cs ih =>
    rcases h : pySplit sep cs with _ | ⟨g, gs⟩
    · exact absurd h (pySplit_ne_nil sep cs)
    · rw [h] at ih
      by_cases hc : c = sep
      · have hsplit : pySplit sep (c :: cs) = [] :: g :: gs := by
          simp [pySplit, h, hc]
        rw [hsplit, joinSp_nil_cons, List.map_cons, if_pos hc, ih]
      · have hsplit : pySplit sep (c :: cs) = (c :: g) :: gs := by
          simp [pySplit, h, hc]
        rw [hsplit, joinSp_cons_cons, List.map_cons, if_neg hc, ih]

/-- Per-character statement of the spec's normalization rule: separators
(underscore, hyphen) become single spaces, everything else is lowercased. -/
def normCharModel (c : Char) : Char :=
  if c = '_' ∨ c = '-' then ' ' else c.toLower

theorem normalize_lemma_eq_map (s : List Char) :
    normalize_lemma s = s.map normCharModel := by
  unfold normalize_lemma
  rw [joinSp_pySplit, joinSp_pySplit, List.map_map, List.map_map]
  apply List.map_congr_left
  intro c _
  by_cases h1 : c = '_'
  · subst h1; simp [normCharModel]
  · by_cases h2 : c = '-'
    · subst h2; simp [normCharModel]
    · simp [Function.comp, normCharModel, h1, h2]

/-- The lexical hierarchy (nltk WordNet noun graph).  Synsets are the
indices 0..n-1 in some topological order: every direct hypernym edge leads
to a strictly smaller index (the hierarchy is a rooted DAG).  hyper i is
the ordered list sense.hypernyms(), whose head is the canonical parent;
lemmas i is the list of surface lemma names of synset i; wordSenses w is
wn.synsets(w) and entity is the synset entity.n.01. -/
structure WordNet where
  n : Nat
  hyper : Nat → List Nat
  lemmas : Nat → List (List Char)
  wordSenses : List Char → List Nat
  entity : Nat
  hyper_lt : ∀ i j, j ∈ hyper i → j < i
  hyper_dom : ∀ i j, j ∈ hyper i → i < n

theorem WordNet.hyper_zero (g : WordNet) : g.hyper 0 = [] := by
  cases h : g.hyper 0 with
  | nil => rfl
  | cons a l => exact absurd (g.hyper_lt 0 a (by simp [h])) (by omega)

/-- Model of sense.hyponyms(): hyponymy is the inverse of the hypernym
relation, so the direct hyponyms of i are the synsets listing i among
their direct hypernyms. -/
def hyponyms (g : WordNet) (i : Nat) : List Nat :=
  (List.range g.n).filter (fun t => decide (i ∈ g.hyper t))

theorem mem_hyponyms (g : WordNet) (i t : Nat) :
    t ∈ hyponyms g i ↔ t < g.n ∧ i ∈ g.hyper t := by
  simp [hyponyms, List.mem_filter, List.mem_range]

theorem hyponyms_gt (g : WordNet) (i t : Nat) (h : t ∈ hyponyms g i) :
    i < t ∧ t < g.n := by
  rcases (mem_hyponyms g i t).mp h with ⟨h1, h2⟩
  exact ⟨g.hyper_lt t i h2, h1⟩

theorem hyponyms_eq_nil (g : WordNet) (i : Nat) (h : g.n ≤ i) :
    hyponyms g i = [] := by
  unfold hyponyms
  rw [List.filter_eq_nil_iff]
  intro t ht
  simp only [decide_eq_true_eq]
  intro hmem
  have := g.hyper_lt t i hmem
  have := List.mem_range.mp ht
  omega

/-- Generic shape of the recursive closure computations: fold a list of
direct neighbours, inserting each neighbour and its own closure. -/
theorem foldr_closure_congr (F G : Nat → Finset Nat) (l : List Nat)
    (h : ∀ y ∈ l, F y = G y) :
    l.foldr (fun y acc => insert y (F y ∪ acc)) ∅ =
      l.foldr (fun y acc => insert y (G y ∪ acc)) ∅ := by
  induction l with
  | nil => rfl
  | cons a l ih =>
    simp only [List.foldr_cons]
    rw [h a (by simp), ih (fun y hy => h y (by simp [hy]))]

theorem mem_foldr_closure (F : Nat → Finset Nat) (l : List Nat) (t : Nat) :
    t ∈ l.foldr (fun y acc => insert y (F y ∪ acc)) ∅ ↔
      ∃ y ∈ l, t = y ∨ t ∈ F y := by
  induction l with
  | nil => simp
  | cons a l ih =>
    simp only [List.foldr_cons, Finset.mem_insert, Finset.mem_union, ih,
      List.mem_cons]
    constructor
    · rintro (h | h | ⟨y, hy, hty⟩)
      · exact ⟨a, Or.inl rfl, Or.inl h⟩
      · exact ⟨a, Or.inl rfl, Or.inr h⟩
      · exact ⟨y, Or.inr hy, hty⟩
    · rintro ⟨y, hy2, hty⟩
      rcases hy2 with rfl | hy2
      · rcases hty with h | h
        · exact Or.inl h
        · exact Or.inr (Or.inl h)
      · exact Or.inr (Or.inr ⟨y, hy2, hty⟩)

/-- Fuel-indexed version of get_all_hypernyms_from_sense.  Because every
hypernym edge decreases the index, fuel i always suffices for synset i. -/
def allHypernymsAux (g : WordNet) : Nat → Nat → Finset Nat
  | 0, _ => ∅
  | fuel + 1, i =>
    (g.hyper i).foldr (fun y acc => insert y (allHypernymsAux g fuel y ∪ acc)) ∅

/-- Model of wordnet.get_all_hypernyms_from_sense: the set of all synsets
reachable by one or more hypernym edges. -/
def allHypernyms (g : WordNet) (i : Nat) : Finset Nat := allHypernymsAux g i i

theorem allHypernymsAux_congr (g : WordNet) :
    ∀ i fuel₁ fuel₂, i ≤ fuel₁ → i ≤ fuel₂ →
      allHypernymsAux g fuel₁ i = allHypernymsAux g fuel₂ i := by
  intro i
  induction i using Nat.strong_induction_on with
  | _ i ih =>
    intro fuel₁ fuel₂ h1 h2
    match fuel₁, fuel₂ with
    | 0, 0 => rfl
    | 0, b + 1 =>
      have hi : i = 0 := by omega
      subst hi
      simp [allHypernymsAux, g.hyper_zero]
    | a + 1, 0 =>
      have hi : i = 0 := by omega
      subst hi
      simp [allHypernymsAux, g.hyper_zero]
    | a + 1, b + 1 =>
      simp only [allHypernymsAux]
      apply foldr_closure_congr
      intro y hy
      have hyi : y < i := g.hyper_lt i y hy
      exact ih y hyi a b (by omega) (by omega)

/-- The defining recursion of get_all_hypernyms_from_sense, fuel-free. -/
theorem allHypernyms_eq (g : WordNet) (i : Nat) :
    allHypernyms g i =
      (g.hyper i).foldr (fun y acc => insert y (allHypernyms g y ∪ acc)) ∅ := by
  unfold allHypernyms
  cases i with
  | zero => simp [allHypernymsAux, g.hyper_zero]
  | succ m =>
    simp only [allHypernymsAux]
    apply foldr_closure_congr
    intro y hy
    have : y < m + 1 := g.hyper_lt (m + 1) y hy
    exact allHypernymsAux_congr g y m y (by omega) le_rfl

theorem mem_allHypernyms (g : WordNet) (t i : Nat) :
    t ∈ allHypernyms g i ↔ ∃ y ∈ g.hyper i, t = y ∨ t ∈ allHypernyms g y := by
  rw [allHypernyms_eq]
  exact mem_foldr_closure _ _ _

/-- Fuel-indexed version of get_all_hyponyms_from_sense.  Hyponym edges
increase the index and stay below n, so fuel n always suffices. -/
def allHyponymsAux (g : WordNet) : Nat → Nat → Finset Nat
  | 0, _ => ∅
  | fuel + 1, i =>
    (hyponyms g i).foldr (fun y acc => insert y (allHyponymsAux g fuel y ∪ acc)) ∅

/-- Model of wordnet.get_all_hyponyms_from_sense: the set of all synsets
reachable by one or more hyponym edges (the hyponym closure). -/
def allHyponyms (g : WordNet) (i : Nat) : Finset Nat := allHyponymsAux g g.n i

theorem allHyponymsAux_congr (g : WordNet) :
    ∀ k fuel₁ fuel₂ i, g.n - i ≤ k → g.n - i ≤ fuel₁ → g.n - i ≤ fuel₂ →
      allHyponymsAux g fuel₁ i = allHyponymsAux g fuel₂ i := by
  intro k
  induction k with
  | zero =>
    intro fuel₁ fuel₂ i h0 h1 h2
    have hnil : hyponyms g i = [] := hyponyms_eq_nil g i (by omega)
    match fuel₁, fuel₂ with
    | 0, 0 => rfl
    | 0, b + 1 => simp [allHyponymsAux, hnil]
    | a + 1, 0 => simp [allHyponymsAux, hnil]
    | a + 1, b + 1 => simp [allHyponymsAux, hnil]
  | succ k ih =>
    intro fuel₁ fuel₂ i h0 h1 h2
    by_cases hni : g.n ≤ i
    · have hnil : hyponyms g i = [] := hyponyms_eq_nil g i hni
      match fuel₁, fuel₂ with
      | 0, 0 => rfl
      | 0, b + 1 => simp [allHyponymsAux, hnil]
      | a + 1, 0 => simp [allHyponymsAux, hnil]
      | a + 1, b + 1 => simp [allHyponymsAux, hnil]
    · match fuel₁, fuel₂ with
      | 0, _ => omega
      | a + 1, 0 => omega
      | a + 1, b + 1 =>
        simp only [allHyponymsAux]
        apply foldr_closure_congr
        intro y hy
        rcases hyponyms_gt g i y hy with ⟨hiy, hyn⟩
        exact ih a b y (by omega) (by omega) (by omega)

/-- The defining recursion of get_all_hyponyms_from_sense, fuel-free. -/
theorem allHyponyms_eq (g : WordNet) (i : Nat) :
    allHyponyms g i =
      (hyponyms g i).foldr (fun y acc => insert y (allHyponyms g y ∪ acc)) ∅ := by
  unfold allHyponyms
  by_cases hni : g.n ≤ i
  · have hnil : hyponyms g i = [] := hyponyms_eq_nil g i hni
    rw [hnil]
    cases hn : g.n with
    | zero => rfl
    | succ m => simp [allHyponymsAux, hnil]
  · have hi : i < g.n := by omega
    rcases hn : g.n with _ | m
    · omega
    · simp only [allHyponymsAux]
      apply foldr_closure_congr
      intro y hy
      rcases hyponyms_gt g i y hy with ⟨hiy, hyn⟩
      exact allHyponymsAux_congr g g.n m (m + 1) y (by omega) (by omega) (by omega)

theorem mem_allHyponyms (g : WordNet) (t i : Nat) :
    t ∈ allHyponyms g i ↔ ∃ y ∈ hyponyms g i, t = y ∨ t ∈ allHyponyms g y := by
  rw [allHyponyms_eq]
  exact mem_foldr_closure _ _ _

theorem mem_allHypernyms_of_edge (g : WordNet) (t s : Nat) (h : s ∈ g.hyper t) :
    s ∈ allHypernyms g t := by
  rw [mem_allHypernyms]
  exact ⟨s, h, Or.inl rfl⟩

theorem mem_allHyponyms_of_edge (g : WordNet) (s t : Nat) (h : t ∈ hyponyms g s) :
    t ∈ allHyponyms g s := by
  rw [mem_allHyponyms]
  exact ⟨t, h, Or.inl rfl⟩

/-- If y is an ancestor of t, then so is every direct hypernym of y. -/
theorem allHypernyms_step (g : WordNet) :
    ∀ t y s, y ∈ allHypernyms g t → s ∈ g.hyper y → s ∈ allHypernyms g t := by
  intro t
  induction t using Nat.strong_induction_on with
  | _ t ih =>
    intro y s hy hs
    rcases (mem_allHypernyms g y t).mp hy with ⟨z, hz, rfl | hyz⟩
    · exact (mem_allHypernyms g s t).mpr ⟨y, hz, Or.inr (mem_allHypernyms_of_edge g y s hs)⟩
    · have hzt : z < t := g.hyper_lt t z hz
      exact (mem_allHypernyms g s t).mpr ⟨z, hz, Or.inr (ih z hzt y s hyz hs)⟩

/-- If y is a descendant of s, then so is every direct hyponym of y. -/
theorem allHyponyms_step (g : WordNet) :
    ∀ k s y t, g.n - s ≤ k → y ∈ allHyponyms g s → t ∈ hyponyms g y →
      t ∈ allHyponyms g s := by
  intro k
  induction k with
  | zero =>
    intro s y t h0 hy ht
    have hnil : hyponyms g s = [] := hyponyms_eq_nil g s (by omega)
    rcases (mem_allHyponyms g y s).mp hy with ⟨z, hz, _⟩
    rw [hnil] at hz
    exact absurd hz (List.not_mem_nil z)
  | succ k ih =>
    intro s y t h0 hy ht
    rcases (mem_allHyponyms g y s).mp hy with ⟨z, hz, rfl | hyz⟩
    · exact (mem_allHyponyms g t s).mpr ⟨y, hz, Or.inr (mem_allHyponyms_of_edge g y t ht)⟩
    · rcases hyponyms_gt g s z hz with ⟨hsz, hzn⟩
      exact (mem_allHyponyms g t s).mpr ⟨z, hz, Or.inr (ih z y t (by omega) hyz ht)⟩

/-- Hyponymy and hypernymy are inverse closures: t lies in the hyponym
closure of s exactly when s lies in the hypernym closure of t. -/
theorem mem_allHyponyms_iff (g : WordNet) :
    ∀ t s, t ∈ allHyponyms g s ↔ s ∈ allHypernyms g t := by
  have fwd : ∀ k s t, g.n - s ≤ k → t ∈ allHyponyms g s → s ∈ allHypernyms g t := by
    intro k
    induction k with
    | zero =>
      intro s t h0 ht
      have hnil : hyponyms g s = [] := hyponyms_eq_nil g s (by omega)
      rcases (mem_allHyponyms g t s).mp ht with ⟨z, hz, _⟩
      rw [hnil] at hz
      exact absurd hz (List.not_mem_nil z)
    | succ k ih =>
      intro s t h0 ht
      rcases (mem_allHyponyms g t s).mp ht with ⟨y, hy, rfl | hty⟩
      · exact mem_allHypernyms_of_edge g t s ((mem_hyponyms g s t).mp hy).2
      · rcases hyponyms_gt g s y hy with ⟨hsy, hyn⟩
        have hyt : y ∈ allHypernyms g t := ih y t (by omega) hty
        exact allHypernyms_step g t y s hyt ((mem_hyponyms g s y).mp hy).2
  have bwd : ∀ t s, s ∈ allHypernyms g t → t ∈ allHyponyms g s := by
    intro t
    induction t using Nat.strong_induction_on with
    | _ t ih =>
      intro s hs
      rcases (mem_allHypernyms g s t).mp hs with ⟨y, hy, rfl | hsy⟩
      · have htn : t < g.n := g.hyper_dom t s hy
        exact mem_allHyponyms_of_edge g s t ((mem_hyponyms g s t).mpr ⟨htn, hy⟩)
      · have hyt : y < t := g.hyper_lt t y hy
        have h1 : y ∈ allHyponyms g s := ih y hyt s hsy
        have htn : t < g.n := g.hyper_dom t y hy
        exact allHyponyms_step g g.n s y t (by omega) h1
          ((mem_hyponyms g y t).mpr ⟨htn, hy⟩)
  intro t s
  exact ⟨fwd g.n s t (by omega), bwd t s⟩

/-- Fuel-indexed version of hypernym_chain; every hypernym edge decreases
the index, so fuel i always suffices for synset i. -/
def hypernym_chainAux (g : WordNet) : Nat → Nat → List Nat
  | 0, i => [i]
  | fuel + 1, i =>
    match g.hyper i with
    | [] => [i]
    | j :: _ => i :: hypernym_chainAux g fuel j

/-- Model of wordnet.hypernym_chain: start at the synset and repeatedly
follow the first listed hypernym until a synset without hypernyms. -/
def hypernym_chain (g : WordNet) (i : Nat) : List Nat := hypernym_chainAux g i i

theorem hypernym_chainAux_congr (g : WordNet) :
    ∀ i fuel₁ fuel₂, i ≤ fuel₁ → i ≤ fuel₂ →
      hypernym_chainAux g fuel₁ i = hypernym_chainAux g fuel₂ i := by
  intro i
  induction i using Nat.strong_induction_on with
  | _ i ih =>
    intro fuel₁ fuel₂ h1 h2
    match fuel₁, fuel₂ with
    | 0, 0 => rfl
    | 0, b + 1 =>
      have hi : i = 0 := by omega
      subst hi
      simp [hypernym_chainAux, g.hyper_zero]
    | a + 1, 0 =>
      have hi : i = 0 := by omega
      subst hi
      simp [hypernym_chainAux, g.hyper_zero]
    | a + 1, b + 1 =>
      cases hh : g.hyper i with
      | nil => simp [hypernym_chainAux, hh]
      | cons j r =>
        have hj : j < i := g.hyper_lt i j (by simp [hh])
        simp only [hypernym_chainAux, hh]
        rw [ih j hj a b (by omega) (by omega)]

theorem hypernym_chain_nil (g : WordNet) (i : Nat) (h : g.hyper i = []) :
    hypernym_chain g i = [i] := by
  unfold hypernym_chain
  cases i with
  | zero => rfl
  | succ m => simp [hypernym_chainAux, h]

theorem hypernym_chain_cons (g : WordNet) (i j : Nat) (r : List Nat)
    (h : g.hyper i = j :: r) :
    hypernym_chain g i = i :: hypernym_chain g j := by
  unfold hypernym_chain
  have hj : j < i := g.hyper_lt i j (by simp [h])
  cases i with
  | zero => rw [g.hyper_zero] at h; exact absurd h (by simp)
  | succ m =>
    simp only [hypernym_chainAux, h]
    rw [hypernym_chainAux_congr g j m j (by omega) le_rfl]

theorem hypernym_chain_head (g : WordNet) (i : Nat) :
    ∃ t, hypernym_chain g i = i :: t := by
  cases hh : g.hyper i with
  | nil => exact ⟨[], hypernym_chain_nil g i hh⟩
  | cons j r => exact ⟨hypernym_chain g j, hypernym_chain_cons g i j r hh⟩

theorem mem_hypernym_chain_le (g : WordNet) :
    ∀ i, ∀ x ∈ hypernym_chain g i, x ≤ i := by
  intro i
  induction i using Nat.strong_induction_on with
  | _ i ih =>
    intro x hx
    cases hh : g.hyper i with
    | nil =>
      rw [hypernym_chain_nil g i hh] at hx
      simp at hx
      omega
    | cons j r =>
      rw [hypernym_chain_cons g i j r hh] at hx
      have hj : j < i := g.hyper_lt i j (by simp [hh])
      rcases List.mem_cons.mp hx with rfl | hx2
      · exact le_rfl
      · exact le_trans (ih j hj x hx2) (le_of_lt hj)

/-- Model of wordnet.get_all_lemmas_from_sense: the set of normalized
lemma tokens of the synset itself together with those of every synset in
its hyponym closure. -/
def get_all_lemmas_from_sense (g : WordNet) (i : Nat) : Finset (List Char) :=
  ((g.lemmas i).map normalize_lemma).toFinset ∪
    (allHyponyms g i).biUnion (fun y => ((g.lemmas y).map normalize_lemma).toFinset)

/-- The cache-free specificity value: len(get_all_lemmas_from_sense(sense)). -/
def specCount (g : WordNet) (i : Nat) : Nat := (get_all_lemmas_from_sense g i).card

/-- Model of Specificity.evaluate: the memo cache is an association list
keyed by the synset (synset names are in bijection with synsets).  On a
miss the value is computed, stored, and the stored entry is returned. -/
def Specificity.evaluate (g : WordNet) (cache : List (Nat × Nat)) (i : Nat) :
    Nat × List (Nat × Nat) :=
  match cache.lookup i with
  | some v => (v, cache)
  | none => (specCount g i, (i, specCount g i) :: cache)

/-- A cache is well formed when every stored entry is the true specificity
of its key.  A fresh Specificity instance has the empty (well formed)
cache, and evaluate preserves well-formedness. -/
def CacheWF (g : WordNet) (cache : List (Nat × Nat)) : Prop :=
  ∀ p ∈ cache, p.2 = specCount g p.1

/-- Deeper descendants of the direct children (the non_children set built
by get_flatness_from_sense). -/
def nonChildrenSet (g : WordNet) (i : Nat) : Finset Nat :=
  (hyponyms g i).foldr (fun y acc => allHyponyms g y ∪ acc) ∅

/-- Model of wordnet.get_flatness_from_sense; Python float division is
modelled with exact rational division. -/
def get_flatness_from_sense (g : WordNet) (i : Nat) : ℚ :=
  let children := (hyponyms g i).toFinset
  let non_children := nonChildrenSet g i
  if non_children.card + children.card ≠ 0 then
    (children.card : ℚ) / ((non_children.card : ℚ) + (children.card : ℚ))
  else 1

/-- Model of GetRandomSynset.random_non_hyponym.  The source loop is
"while True: result = self(); if synset not in
get_all_hypernyms_from_sense(result): return result" with no retry cap;
samples k is the k-th value drawn by self(), and fuel counts how many
iterations of the unbounded loop we observe: the source terminates with r
exactly when some finite fuel yields some r. -/
def GetRandomSynset.random_non_hyponym (g : WordNet) (samples : Nat → Nat)
    (synset : Nat) : Nat → Nat → Option Nat
  | _, 0 => none
  | k, fuel + 1 =>
    if synset ∈ allHypernyms g (samples k) then
      GetRandomSynset.random_non_hyponym g samples synset (k + 1) fuel
    else some (samples k)

/-- Modelled from the spec: puzzle assembly lives in puzzle.py
(WordnetPuzzleGenerator), which is not among the source files; the spec
says the puzzle is the four sibling concepts with the odd concept fixed at
the terminal position. -/
def assemble_puzzle (sibs : List Nat) (odd : Nat) : List Nat := sibs ++ [odd]

theorem mem_foldr_union (F : Nat → Finset Nat) (l : List Nat) (t : Nat) :
    t ∈ l.foldr (fun x acc => F x ∪ acc) ∅ ↔ ∃ x ∈ l, t ∈ F x := by
  induction l with
  | nil => simp
  | cons a l ih =>
    simp only [List.foldr_cons, Finset.mem_union, ih, List.mem_cons]
    constructor
    · rintro (h | ⟨x, hx, ht⟩)
      · exact ⟨a, Or.inl rfl, h⟩
      · exact ⟨x, Or.inr hx, ht⟩
    · rintro ⟨x, hx2, ht⟩
      rcases hx2 with rfl | hx2
      · exact Or.inl ht
      · exact Or.inr ⟨x, hx2, ht⟩

/-- Model of wordnet.get_all_hypernyms: union of the hypernym closures of
every sense of the word. -/
def get_all_hypernyms_word (g : WordNet) (w : List Char) : Finset Nat :=
  (g.wordSenses w).foldr (fun x acc => allHypernyms g x ∪ acc) ∅

theorem mem_get_all_hypernyms_word (g : WordNet) (w : List Char) (t : Nat) :
    t ∈ get_all_hypernyms_word g w ↔ ∃ x ∈ g.wordSenses w, t ∈ allHypernyms g x :=
  mem_foldr_union _ _ _

/-- The intersection of the hypernym sets of all the words, as computed by
find_lowest_common_ancestor. -/
def commonHypernymsOf (g : WordNet) (w : List Char) (ws : List (List Char)) :
    Finset Nat :=
  ws.foldl (fun acc word => acc ∩ get_all_hypernyms_word g word)
    (get_all_hypernyms_word g w)

theorem mem_foldl_inter (g : WordNet) (ws : List (List Char)) :
    ∀ (init : Finset Nat) (t : Nat),
      t ∈ ws.foldl (fun acc word => acc ∩ get_all_hypernyms_word g word) init ↔
        t ∈ init ∧ ∀ u ∈ ws, t ∈ get_all_hypernyms_word g u := by
  induction ws with
  | nil => intro init t; simp
  | cons w ws ih =>
    intro init t
    simp only [List.foldl_cons, ih, Finset.mem_inter, List.mem_cons]
    constructor
    · rintro ⟨⟨h1, h2⟩, h3⟩
      refine ⟨h1, ?_⟩
      rintro u (rfl | hu)
      · exact h2
      · exact h3 u hu
    · rintro ⟨h1, h2⟩
      exact ⟨⟨h1, h2 w (Or.inl rfl)⟩, fun u hu => h2 u (Or.inr hu)⟩

theorem mem_commonHypernymsOf (g : WordNet) (w : List Char)
    (ws : List (List Char)) (t : Nat) :
    t ∈ commonHypernymsOf g w ws ↔
      t ∈ get_all_hypernyms_word g w ∧ ∀ u ∈ ws, t ∈ get_all_hypernyms_word g u :=
  mem_foldl_inter g ws _ t

/-- Lexicographic order on (specificity, synset) pairs: Python sorts the
scored list of pairs lexicographically. -/
def pairR (a b : Nat × Nat) : Prop := a.1 < b.1 ∨ (a.1 = b.1 ∧ a.2 ≤ b.2)

instance : DecidableRel pairR := fun a b => by unfold pairR; infer_instance

instance : IsTotal (Nat × Nat) pairR := ⟨by intro a b; unfold pairR; omega⟩

instance : IsTrans (Nat × Nat) pairR := ⟨by intro a b c; unfold pairR; omega⟩

/-- Every synset in a hypernym closure is one of the n real synsets. -/
theorem mem_allHypernyms_lt_n (g : WordNet) :
    ∀ i t, t ∈ allHypernyms g i → t < g.n := by
  intro i
  induction i using Nat.strong_induction_on with
  | _ i ih =>
    intro t ht
    rcases (mem_allHypernyms g t i).mp ht with ⟨y, hy, rfl | hty⟩
    · exact lt_of_lt_of_le (g.hyper_lt i t hy) (le_of_lt (g.hyper_dom i t hy))
    · exact ih y (g.hyper_lt i y hy) t hty

/-- Ascending enumeration of a finite set of synsets (canonical iteration
order for a Python set of synsets; the lexicographic sort applied next
makes the end result independent of this order). -/
def synsetList (g : WordNet) (s : Finset Nat) : List Nat :=
  (List.range g.n).filter (fun t => decide (t ∈ s))

theorem mem_synsetList (g : WordNet) (s : Finset Nat) (hs : ∀ t ∈ s, t < g.n)
    (t : Nat) : t ∈ synsetList g s ↔ t ∈ s := by
  unfold synsetList
  simp only [List.mem_filter, List.mem_range, decide_eq_true_eq]
  exact ⟨fun h => h.2, fun h => ⟨hs t h, h⟩⟩

/-- Model of wordnet.find_lowest_common_ancestor.  The global memoized
specificity instance always returns specCount (see
specificity_evaluate_stable).  An empty word list raises IndexError in the
source (words[0]) and is modelled as none. -/
def find_lowest_common_ancestor (g : WordNet) (words : List (List Char)) :
    Option (Nat × Nat) :=
  match words with
  | [] => none
  | w :: ws =>
    let common := commonHypernymsOf g w ws
    if common.card = 0 then some (specCount g g.entity, g.entity)
    else
      (List.insertionSort pairR
        ((synsetList g common).map (fun h => (specCount g h, h)))).head?

/-- Model of multitrain.get_final_root_synset: iterate over the REVERSED
hypernym chain (chain[::-1], i.e. from the most general ancestor down
toward the initial synset) and return the first element with specificity
below 700; Python returns None when the loop falls through. -/
def get_final_root_synset (g : WordNet) (i : Nat) : Option Nat :=
  (hypernym_chain g i).reverse.find? (fun w => decide (specCount g w < 700))

/-- Follows the spec sentence word for word, for comparison with
get_final_root_synset: the first ancestor encountered when walking the
hypernym chain upward FROM the initial concept whose specificity is below
the threshold 700. -/
def get_final_root_specModel (g : WordNet) (i : Nat) : Option Nat :=
  (hypernym_chain g i).find? (fun w => decide (specCount g w < 700))

/-- One row of multrain_data.csv: write_to_csv(word, num_epochs,
best_accuracy, success). -/
structure LogRecord where
  word : Nat
  epochs : Nat
  acc : ℚ
  success : Bool
deriving DecidableEq

/-- The mutable state of one curriculum target inside multitrain.train:
the active concept (initial_root_synset), the Python local current_root
(unassigned, hence none, until the first promotion), the best-accuracy
tracker, the generator root, which root the data loaders were generated
from (none before the first regeneration), and the csv log. -/
structure TrainState where
  root : Nat
  currentRoot : Option Nat
  bestAcc : ℚ
  genRoot : Nat
  loaders : Option Nat
  log : List LogRecord
deriving DecidableEq

/-- Model of the nested maybe_regenerate: every 100th epoch the loaders
are rebuilt from the generator's current root. -/
def maybeRegen (genRoot epoch : Nat) (prev : Option Nat) : Option Nat :=
  if epoch % 100 = 0 then some genRoot else prev

/-- Model of the nested maybe_evaluate: on epochs congruent to 99 mod 100
the held-out accuracy (the oracle value acc) is compared with the best so
far. -/
def maybeEval (epoch : Nat) (acc prevBest : ℚ) : ℚ :=
  if epoch % 100 = 99 then (if acc > prevBest then acc else prevBest) else prevBest

/-- Model of the trailing "if epoch == num_epochs - 1" block of the train
loop: it reads the local current_root, which raises UnboundLocalError
(modelled as Except.error) when no promotion has ever assigned it.  The
returned flag records whether the loop breaks. -/
def exhaustCheck (numEpochs epoch : Nat) (st : TrainState) :
    Except Unit (TrainState × Bool) :=
  if epoch = numEpochs - 1 then
    match st.currentRoot with
    | none => Except.error ()
    | some w =>
      Except.ok ({ st with log := st.log ++ [⟨w, epoch, st.bestAcc, false⟩] }, true)
  else Except.ok (st, false)

/-- Model of one iteration of "for epoch in range(num_epochs)" in
multitrain.train (lines 198-231): regenerate loaders on the cadence,
update the best accuracy from the held-out evaluation oracle, run the
promotion block when the best accuracy exceeds 0.8 (indexing chain[1]
raises, hence Except.error, when the chain has no second element), then
run the exhaustion check. -/
def epochStep (g : WordNet) (numEpochs : Nat) (acc : ℚ) (epoch : Nat)
    (st : TrainState) : Except Unit (TrainState × Bool) :=
  if maybeEval epoch acc st.bestAcc > 8 / 10 then
    match (hypernym_chain g st.root).get? 1 with
    | none => Except.error ()
    | some newRoot =>
      exhaustCheck numEpochs epoch
        { root := newRoot, currentRoot := some st.root, bestAcc := -1,
          genRoot := newRoot,
          loaders := maybeRegen newRoot 100 (maybeRegen st.genRoot epoch st.loaders),
          log := st.log ++ [⟨st.root, epoch, maybeEval epoch acc st.bestAcc, true⟩] }
  else
    exhaustCheck numEpochs epoch
      { st with
        bestAcc := maybeEval epoch acc st.bestAcc,
        loaders := maybeRegen st.genRoot epoch st.loaders }

/-- The epoch loop of one curriculum target, driven by the per-epoch
held-out accuracy oracle; fuel is the number of remaining epochs. -/
def runFrom (g : WordNet) (numEpochs : Nat) (acc : Nat → ℚ) :
    Nat → Nat → TrainState → Except Unit TrainState
  | 0, _, st => Except.ok st
  | fuel + 1, epoch, st =>
    match epochStep g numEpochs (acc epoch) epoch st with
    | Except.error e => Except.error e
    | Except.ok (st', true) => Except.ok st'
    | Except.ok (st', false) => runFrom g numEpochs acc fuel (epoch + 1) st'

/-- The per-target initialization of multitrain.train (lines 191-197):
loaders unset, best accuracy -1.0, generator reset to the initial root,
and the Python local current_root not yet assigned. -/
def initTrainState (root : Nat) : TrainState :=
  { root := root, currentRoot := none, bestAcc := -1, genRoot := root,
    loaders := none, log := [] }

/-- Running one full curriculum target from its initial state. -/
def runTarget (g : WordNet) (numEpochs : Nat) (acc : Nat → ℚ) (root : Nat) :
    Except Unit TrainState :=
  runFrom g numEpochs acc numEpochs 0 (initTrainState root)

/-- A small concrete hierarchy for witnesses: 0 is the root (entity), 1 its
only child, 2 and 3 the two children of 1. -/
def gD : WordNet where
  n := 4
  hyper := fun i =>
    match i with
    | 1 => [0]
    | 2 => [1]
    | 3 => [1]
    | _ => []
  lemmas := fun i =>
    match i with
    | 0 => [['e', 'n', 't', 'i', 't', 'y']]
    | 1 => [['a']]
    | 2 => [['b']]
    | 3 => [['c']]
    | _ => []
  wordSenses := fun w =>
    if w = ['x'] then [2] else if w = ['y'] then [3] else []
  entity := 0
  hyper_lt := by
    intro i j h
    rcases i with _ | _ | _ | _ | m <;> simp at h <;> omega
  hyper_dom := by
    intro i j h
    rcases i with _ | _ | _ | _ | m <;> simp at h <;> omega

/-- A one-synset hierarchy whose only synset carries 700 distinct lemmas,
so its specificity is exactly the threshold 700. -/
def gB : WordNet where
  n := 1
  hyper := fun _ => []
  lemmas := fun i =>
    match i with
    | 0 => (List.range 700).map (fun k => List.replicate (k + 1) 'a')
    | _ => []
  wordSenses := fun _ => []
  entity := 0
  hyper_lt := by intro i j h; simp at h
  hyper_dom := by intro i j h; simp at h

set_option maxRecDepth 100000 in
theorem specCount_gB : specCount gB 0 = 700 := by
  have hlem : gB.lemmas 0 =
      (List.range 700).map (fun k => List.replicate (k + 1) 'a') := rfl
  have hhyp : allHyponyms gB 0 = ∅ := by
    rw [allHyponyms_eq]
    have hnil : hyponyms gB 0 = [] := by
      unfold hyponyms
      rw [List.filter_eq_nil_iff]
      intro t ht
      simp [gB]
    rw [hnil]
    rfl
  have hnorm : (gB.lemmas 0).map normalize_lemma = gB.lemmas 0 := by
    rw [hlem, List.map_map]
    apply List.map_congr_left
    intro k _
    show normalize_lemma (List.replicate (k + 1) 'a') = _
    rw [normalize_lemma_eq_map, List.map_replicate,
      show normCharModel 'a' = 'a' from by decide]
  have hnodup : ((List.range 700).map
      (fun k => List.replicate (k + 1) 'a')).Nodup := by
    refine List.Nodup.map ?_ (List.nodup_range 700)
    intro a b hab
    have := congrArg List.length hab
    simpa using this
  unfold specCount get_all_lemmas_from_sense
  rw [hhyp, hnorm, Finset.biUnion_empty, Finset.union_empty, hlem,
    List.toFinset_card_of_nodup hnodup]
  simp

/-- Claim C8: normalize_lemma replaces every underscore and every hyphen
with a single space and folds the result to lowercase; in particular
"Fire_Engine" and "fire-engine" both normalize to "fire engine". -/
theorem normalize_lemma_correct :
    (∀ s : List Char, normalize_lemma s = s.map normCharModel) ∧
    normalize_lemma "Fire_Engine".toList = "fire engine".toList ∧
    normalize_lemma "fire-engine".toList = "fire engine".toList :=
  ⟨normalize_lemma_eq_map, by decide, by decide⟩

theorem lookup_mem : ∀ (cache : List (Nat × Nat)) (i v : Nat),
    cache.lookup i = some v → (i, v) ∈ cache := by
  intro cache
  induction cache with
  | nil => intro i v h; simp [List.lookup] at h
  | cons p l ih =>
    intro i v h
    rcases p with ⟨k, b⟩
    by_cases hk : k = i
    · subst hk
      simp [List.lookup] at h
      subst h
      exact List.mem_cons_self _ _
    · simp only [List.lookup, beq_eq_false_iff_ne.mpr (Ne.symm hk)] at h
      exact List.mem_cons_of_mem _ (ih i v h)

/-- Claim C3: Specificity.evaluate(c) equals the number of distinct
normalized lemma tokens on c itself or on members of its hyponym closure;
the memo cache stays well formed and never changes a stored value, so
repeated calls on the same instance return the same integer. -/
theorem specificity_evaluate_stable (g : WordNet) (cache : List (Nat × Nat))
    (i : Nat) (hwf : CacheWF g cache) :
    (Specificity.evaluate g cache i).1 = specCount g i ∧
    (∀ t, t ∈ get_all_lemmas_from_sense g i ↔
      (∃ l ∈ g.lemmas i, normalize_lemma l = t) ∨
      ∃ y ∈ allHyponyms g i, ∃ l ∈ g.lemmas y, normalize_lemma l = t) ∧
    CacheWF g (Specificity.evaluate g cache i).2 ∧
    (∀ j v, cache.lookup j = some v →
      (Specificity.evaluate g cache i).2.lookup j = some v) ∧
    (Specificity.evaluate g (Specificity.evaluate g cache i).2 i).1 =
      (Specificity.evaluate g cache i).1 := by
  have hchar : ∀ t, t ∈ get_all_lemmas_from_sense g i ↔
      (∃ l ∈ g.lemmas i, normalize_lemma l = t) ∨
      ∃ y ∈ allHyponyms g i, ∃ l ∈ g.lemmas y, normalize_lemma l = t := by
    intro t
    simp [get_all_lemmas_from_sense, List.mem_toFinset, List.mem_map,
      Finset.mem_union, Finset.mem_biUnion]
  cases hl : cache.lookup i with
  | some v =>
    have hval : v = specCount g i := hwf (i, v) (lookup_mem cache i v hl)
    refine ⟨?_, hchar, ?_, ?_, ?_⟩
    · simp [Specificity.evaluate, hl, hval]
    · simpa [Specificity.evaluate, hl] using hwf
    · intro j w hj; simpa [Specificity.evaluate, hl] using hj
    · simp [Specificity.evaluate, hl]
  | none =>
    refine ⟨?_, hchar, ?_, ?_, ?_⟩
    · simp [Specificity.evaluate, hl]
    · intro p hp
      simp only [Specificity.evaluate, hl] at hp
      rcases List.mem_cons.mp hp with rfl | hp2
      · rfl
      · exact hwf p hp2
    · intro j w hj
      simp only [Specificity.evaluate, hl]
      have hji : j ≠ i := by
        intro h
        subst h
        rw [hl] at hj
        exact Option.noConfusion hj
      simp [List.lookup, beq_eq_false_iff_ne.mpr hji, hj]
    · simp [Specificity.evaluate, hl, List.lookup]

/-- Witness for specificity_evaluate_stable: a fresh Specificity instance
(empty, well formed cache) evaluated at synset 1 of gD. -/
theorem specificity_evaluate_stable_witness :
    (Specificity.evaluate gD [] 1).1 = specCount gD 1 ∧
    (∀ t, t ∈ get_all_lemmas_from_sense gD 1 ↔
      (∃ l ∈ gD.lemmas 1, normalize_lemma l = t) ∨
      ∃ y ∈ allHyponyms gD 1, ∃ l ∈ gD.lemmas y, normalize_lemma l = t) ∧
    CacheWF gD (Specificity.evaluate gD [] 1).2 ∧
    (∀ j v, List.lookup j ([] : List (Nat × Nat)) = some v →
      (Specificity.evaluate gD [] 1).2.lookup j = some v) ∧
    (Specificity.evaluate gD (Specificity.evaluate gD [] 1).2 1).1 =
      (Specificity.evaluate gD [] 1).1 :=
  specificity_evaluate_stable gD [] 1 (fun p hp => absurd hp (List.not_mem_nil p))

/-- Claim C9: get_flatness_from_sense returns the sentinel 1.0 on a synset
with zero hyponyms; with at least one hyponym it returns the number of
direct children divided by the number of direct children plus deeper
descendants, a value strictly positive and at most 1. -/
theorem get_flatness_correct (g : WordNet) (i : Nat) :
    (hyponyms g i = [] → get_flatness_from_sense g i = 1) ∧
    (hyponyms g i ≠ [] →
      get_flatness_from_sense g i =
        ((hyponyms g i).toFinset.card : ℚ) /
          (((hyponyms g i).toFinset.card : ℚ) + ((nonChildrenSet g i).card : ℚ)) ∧
      0 < get_flatness_from_sense g i ∧ get_flatness_from_sense g i ≤ 1) := by
  constructor
  · intro hnil
    unfold get_flatness_from_sense nonChildrenSet
    rw [hnil]
    simp
  · intro hne
    have hcard : 0 < (hyponyms g i).toFinset.card := by
      rcases List.exists_mem_of_ne_nil _ hne with ⟨x, hx⟩
      exact Finset.card_pos.mpr ⟨x, List.mem_toFinset.mpr hx⟩
    have hcond : (nonChildrenSet g i).card + (hyponyms g i).toFinset.card ≠ 0 := by
      omega
    have hval : get_flatness_from_sense g i =
        ((hyponyms g i).toFinset.card : ℚ) /
          (((hyponyms g i).toFinset.card : ℚ) + ((nonChildrenSet g i).card : ℚ)) := by
      unfold get_flatness_from_sense
      rw [if_pos hcond, add_comm ((nonChildrenSet g i).card : ℚ)]
    have hnum : (0 : ℚ) < ((hyponyms g i).toFinset.card : ℚ) := by
      exact_mod_cast hcard
    have hden : (0 : ℚ) < ((hyponyms g i).toFinset.card : ℚ) +
        ((nonChildrenSet g i).card : ℚ) := by
      have : (0 : ℚ) ≤ ((nonChildrenSet g i).card : ℚ) := by positivity
      linarith
    refine ⟨hval, ?_, ?_⟩
    · rw [hval]
      exact div_pos hnum hden
    · rw [hval]
      rw [div_le_one hden]
      have : (0 : ℚ) ≤ ((nonChildrenSet g i).card : ℚ) := by positivity
      linarith

/-- Witness for get_flatness_correct: synset 1 of gD has the two direct
children 2 and 3 and no deeper descendants. -/
theorem get_flatness_correct_witness :
    get_flatness_from_sense gD 1 =
      ((hyponyms gD 1).toFinset.card : ℚ) /
        (((hyponyms gD 1).toFinset.card : ℚ) + ((nonChildrenSet gD 1).card : ℚ)) ∧
    0 < get_flatness_from_sense gD 1 ∧ get_flatness_from_sense gD 1 ≤ 1 :=
  (get_flatness_correct gD 1).2 (by decide)

/-- Any value returned by the random_non_hyponym loop passed the loop's
guard: the excluded synset is not among its hypernyms. -/
theorem random_non_hyponym_guard (g : WordNet) (samples : Nat → Nat) (s : Nat) :
    ∀ fuel k r, GetRandomSynset.random_non_hyponym g samples s k fuel = some r →
      s ∉ allHypernyms g r := by
  intro fuel
  induction fuel with
  | zero =>
    intro k r h
    exact Option.noConfusion h
  | succ m ih =>
    intro k r h
    by_cases hk : s ∈ allHypernyms g (samples k)
    · rw [GetRandomSynset.random_non_hyponym, if_pos hk] at h
      exact ih (k + 1) r h
    · rw [GetRandomSynset.random_non_hyponym, if_neg hk] at h
      rcases Option.some.inj h with rfl
      exact hk

/-- Claim C1: every synset returned by random_non_hyponym(s) has s outside
its hypernym set, equivalently lies outside the hyponym closure of s; a
puzzle assembled from four siblings inside the closure with this synset as
the odd element therefore has its non-odd elements inside the shared
ancestor's closure and the odd element outside it. -/
theorem random_non_hyponym_outside_closure (g : WordNet) (samples : Nat → Nat)
    (s k fuel r : Nat) (sibs : List Nat)
    (hr : GetRandomSynset.random_non_hyponym g samples s k fuel = some r)
    (hsibs : ∀ x ∈ sibs, x ∈ allHyponyms g s) :
    s ∉ allHypernyms g r ∧ r ∉ allHyponyms g s ∧
    ∀ x ∈ assemble_puzzle sibs r, x ∈ allHyponyms g s ∨ x = r := by
  have hguard : s ∉ allHypernyms g r := random_non_hyponym_guard g samples s fuel k r hr
  have hout : r ∉ allHyponyms g s := fun hmem =>
    hguard ((mem_allHyponyms_iff g r s).mp hmem)
  refine ⟨hguard, hout, ?_⟩
  intro x hx
  rcases List.mem_append.mp hx with hx1 | hx2
  · exact Or.inl (hsibs x hx1)
  · rcases List.mem_singleton.mp hx2 with rfl
    exact Or.inr rfl

/-- Witness for random_non_hyponym_outside_closure on gD: with s = 1, the
sample stream first draws 2 (a hyponym of 1, rejected) and then 0 (not a
hyponym of 1, returned). -/
theorem random_non_hyponym_outside_closure_witness :
    1 ∉ allHypernyms gD 0 ∧ 0 ∉ allHyponyms gD 1 ∧
    ∀ x ∈ assemble_puzzle [2, 3] 0, x ∈ allHyponyms gD 1 ∨ x = 0 :=
  random_non_hyponym_outside_closure gD (fun k => if k = 0 then 2 else 0) 1 0 2 0
    [2, 3] (by decide) (by decide)

/-- Claim C2 fails on the code: the odd-one-out rejection loop is "while
True" with no retry cap, so when every sample lies inside the excluded
hyponym closure no amount of iterations returns: the loop runs forever.
Calling random_non_hyponym on the generator's own root synset is such an
input, since every sample is drawn from the root's hyponym closure. -/
theorem random_non_hyponym_no_cap (g : WordNet) (root : Nat)
    (samples : Nat → Nat) (hsub : ∀ k, samples k ∈ allHyponyms g root) :
    ∀ fuel k, GetRandomSynset.random_non_hyponym g samples root k fuel = none := by
  intro fuel
  induction fuel with
  | zero => intro k; rfl
  | succ m ih =>
    intro k
    have hk : root ∈ allHypernyms g (samples k) :=
      (mem_allHyponyms_iff g (samples k) root).mp (hsub k)
    rw [GetRandomSynset.random_non_hyponym, if_pos hk]
    exact ih (k + 1)

/-- Witness for random_non_hyponym_no_cap on gD with root 1: the constant
sample stream 2 lies inside the closure of 1, and the loop observed for 5
iterations never returns. -/
theorem random_non_hyponym_no_cap_witness :
    GetRandomSynset.random_non_hyponym gD (fun _ => 2) 1 0 5 = none :=
  random_non_hyponym_no_cap gD 1 (fun _ => 2)
    (fun k => (by decide : (2 : Nat) ∈ allHyponyms gD 1)) 5 0

/-- Claim C6: hypernym_chain starts at the given synset, each subsequent
element is the first hypernym of the previous one, the last element has no
hypernyms, and no element repeats. -/
theorem hypernym_chain_correct (g : WordNet) (c : Nat) :
    (hypernym_chain g c).head? = some c ∧
    List.Chain' (fun a b => g.hyper a ≠ [] ∧ b = (g.hyper a).headI)
      (hypernym_chain g c) ∧
    (∀ w, (hypernym_chain g c).getLast? = some w → g.hyper w = []) ∧
    (hypernym_chain g c).Nodup := by
  induction c using Nat.strong_induction_on with
  | _ c ih =>
    cases hh : g.hyper c with
    | nil =>
      rw [hypernym_chain_nil g c hh]
      refine ⟨rfl, List.chain'_singleton c, ?_, List.nodup_singleton c⟩
      intro w hw
      simp at hw
      subst hw
      exact hh
    | cons j r =>
      have hj : j < c := g.hyper_lt c j (by simp [hh])
      rcases ih j hj with ⟨ihhead, ihchain, ihlast, ihnodup⟩
      rw [hypernym_chain_cons g c j r hh]
      rcases hypernym_chain_head g j with ⟨t, hjt⟩
      refine ⟨rfl, ?_, ?_, ?_⟩
      · rw [List.chain'_cons']
        refine ⟨?_, ihchain⟩
        intro b hb
        rw [ihhead] at hb
        rcases Option.some.inj hb with rfl
        exact ⟨by simp [hh], by simp [hh]⟩
      · intro w hw
        rw [hjt, List.getLast?_cons_cons, ← hjt] at hw
        exact ihlast w hw
      · rw [List.nodup_cons]
        refine ⟨?_, ihnodup⟩
        intro hc
        have := mem_hypernym_chain_le g j c hc
        omega

/-- Witness for hypernym_chain_correct at synset 2 of gD: the chain is
[2, 1, 0] and its last element 0 has no hypernyms. -/
theorem hypernym_chain_correct_witness :
    gD.hyper 0 = [] ∧ (hypernym_chain gD 2).Nodup :=
  ⟨(hypernym_chain_correct gD 2).2.2.1 0 (by decide),
    (hypernym_chain_correct gD 2).2.2.2⟩

/-- When a synset has hypernyms, position 1 of its chain is the first
hypernym (the canonical parent). -/
theorem hypernym_chain_get_one (g : WordNet) (i : Nat) (h : g.hyper i ≠ []) :
    (hypernym_chain g i).get? 1 = some ((g.hyper i).headI) := by
  rcases hh : g.hyper i with _ | ⟨j, r⟩
  · exact absurd hh h
  · rw [hypernym_chain_cons g i j r hh]
    rcases hypernym_chain_head g j with ⟨t, hjt⟩
    rw [hjt]
    rfl

/-- Claim C4: whenever the best-seen held-out accuracy exceeds 0.8, the
epoch step advances the active root to exactly the first hypernym of the
current active root (which is chain position 1), resets the generator and
regenerates the loaders against the new root, resets the best-accuracy
tracker to the sentinel -1, records the promoted concept in current_root,
and appends one success record with success = true (any further record
appended by the same step is a failure record). -/
theorem promotion_invariant (g : WordNet) (numEpochs epoch : Nat) (acc : ℚ)
    (st : TrainState) (hacc : maybeEval epoch acc st.bestAcc > 8 / 10)
    (hpar : g.hyper st.root ≠ []) :
    ∃ st' brk, epochStep g numEpochs acc epoch st = Except.ok (st', brk) ∧
      st'.root = (g.hyper st.root).headI ∧
      (hypernym_chain g st.root).get? 1 = some st'.root ∧
      st'.genRoot = st'.root ∧
      st'.loaders = some st'.root ∧
      st'.bestAcc = -1 ∧
      st'.currentRoot = some st.root ∧
      ∃ tail, st'.log = st.log ++
          { word := st.root, epochs := epoch, acc := maybeEval epoch acc st.bestAcc,
            success := true } :: tail ∧
        ∀ rec ∈ tail, rec.success = false := by
  have hchain := hypernym_chain_get_one g st.root hpar
  by_cases he : epoch = numEpochs - 1
  · refine ⟨{
        root := (g.hyper st.root).headI,
        currentRoot := some st.root,
        bestAcc := -1,
        genRoot := (g.hyper st.root).headI,
        loaders := some ((g.hyper st.root).headI),
        log := (st.log ++
            [⟨st.root, epoch, maybeEval epoch acc st.bestAcc, true⟩]) ++
          [⟨st.root, epoch, -1, false⟩] }, true, ?_, rfl, hchain, rfl, rfl, rfl,
      rfl, ⟨[⟨st.root, epoch, -1, false⟩], by simp, by simp⟩⟩
    unfold epochStep
    rw [if_pos hacc, hchain]
    unfold exhaustCheck
    dsimp only
    rw [if_pos he]
    simp [maybeRegen]
  · refine ⟨{
        root := (g.hyper st.root).headI,
        currentRoot := some st.root,
        bestAcc := -1,
        genRoot := (g.hyper st.root).headI,
        loaders := some ((g.hyper st.root).headI),
        log := st.log ++
          [⟨st.root, epoch, maybeEval epoch acc st.bestAcc, true⟩] }, false, ?_,
      rfl, hchain, rfl, rfl, rfl, rfl, ⟨[], by simp, by simp⟩⟩
    unfold epochStep
    rw [if_pos hacc, hchain]
    unfold exhaustCheck
    dsimp only
    rw [if_neg he]
    simp [maybeRegen]

/-- Witness for promotion_invariant: on gD with active root 2, evaluation
epoch 99 and held-out accuracy 1 the promotion fires. -/
theorem promotion_invariant_witness :
    ∃ st' brk, epochStep gD 200 1 99 (initTrainState 2) = Except.ok (st', brk) ∧
      st'.root = (gD.hyper 2).headI ∧
      (hypernym_chain gD 2).get? 1 = some st'.root ∧
      st'.genRoot = st'.root ∧
      st'.loaders = some st'.root ∧
      st'.bestAcc = -1 ∧
      st'.currentRoot = some 2 ∧
      ∃ tail, st'.log = [] ++
          { word := 2, epochs := 99, acc := maybeEval 99 1 (-1), success := true } :: tail ∧
        ∀ rec ∈ tail, rec.success = false :=
  promotion_invariant gD 200 99 1 (initTrainState 2)
    (by norm_num [maybeEval, initTrainState]) (by decide)

/-- Claim C5 fails on the code: when a curriculum target exhausts its
epoch budget without any promotion having ever occurred, the exhaustion
branch reads the local variable current_root, which has never been
assigned, so the run aborts with UnboundLocalError instead of appending a
failure record and moving on.  Concretely: a single target with root 2 of
gD, an epoch budget of 1 and held-out accuracy constantly 0 errors out. -/
theorem exhaustion_unbound_local :
    runTarget gD 1 (fun _ => 0) 2 = Except.error () := by
  simp [runTarget, runFrom, epochStep, maybeRegen, maybeEval, exhaustCheck,
    initTrainState]
  norm_num

/-- The token set of a concept is contained in that of any of its direct
hypernyms, since the concept and its whole closure lie inside the
hypernym's closure. -/
theorem get_all_lemmas_subset_of_hyper (g : WordNet) (c p : Nat)
    (h : p ∈ g.hyper c) :
    get_all_lemmas_from_sense g c ⊆ get_all_lemmas_from_sense g p := by
  have hc_mem : c ∈ hyponyms g p := (mem_hyponyms g p c).mpr ⟨g.hyper_dom c p h, h⟩
  have hc_clos : c ∈ allHyponyms g p := mem_allHyponyms_of_edge g p c hc_mem
  have hsub : allHyponyms g c ⊆ allHyponyms g p := by
    intro y hy
    exact (mem_allHyponyms g y p).mpr ⟨c, hc_mem, Or.inr hy⟩
  intro t ht
  unfold get_all_lemmas_from_sense at ht ⊢
  rcases Finset.mem_union.mp ht with h1 | h2
  · exact Finset.mem_union_right _ (Finset.mem_biUnion.mpr ⟨c, hc_clos, h1⟩)
  · rcases Finset.mem_biUnion.mp h2 with ⟨y, hy, hty⟩
    exact Finset.mem_union_right _ (Finset.mem_biUnion.mpr ⟨y, hsub hy, hty⟩)

theorem specCount_le_of_hyper (g : WordNet) (c p : Nat) (h : p ∈ g.hyper c) :
    specCount g c ≤ specCount g p :=
  Finset.card_le_card (get_all_lemmas_subset_of_hyper g c p h)

theorem hypernym_chain_spec_le (g : WordNet) :
    ∀ c, ∀ x ∈ hypernym_chain g c, specCount g c ≤ specCount g x := by
  intro c
  induction c using Nat.strong_induction_on with
  | _ c ih =>
    intro x hx
    cases hh : g.hyper c with
    | nil =>
      rw [hypernym_chain_nil g c hh] at hx
      simp at hx
      subst hx
      exact le_rfl
    | cons j r =>
      rw [hypernym_chain_cons g c j r hh] at hx
      have hj : j < c := g.hyper_lt c j (by simp [hh])
      rcases List.mem_cons.mp hx with rfl | hx2
      · exact le_rfl
      · exact le_trans (specCount_le_of_hyper g c j (by simp [hh])) (ih j hj x hx2)

/-- Specificity is non-decreasing along the hypernym chain. -/
theorem hypernym_chain_pairwise (g : WordNet) :
    ∀ c, List.Pairwise (fun a b => specCount g a ≤ specCount g b)
      (hypernym_chain g c) := by
  intro c
  induction c using Nat.strong_induction_on with
  | _ c ih =>
    cases hh : g.hyper c with
    | nil =>
      rw [hypernym_chain_nil g c hh]
      exact List.pairwise_singleton _ _
    | cons j r =>
      have hj : j < c := g.hyper_lt c j (by simp [hh])
      rw [hypernym_chain_cons g c j r hh, List.pairwise_cons]
      refine ⟨?_, ih j hj⟩
      intro b hb
      exact le_trans (specCount_le_of_hyper g c j (by simp [hh]))
        (hypernym_chain_spec_le g j b hb)

/-- On a list whose measure is non-increasing, the first element accepted
by find? maximizes the measure among all accepted elements. -/
theorem find?_min_of_pairwise (f : Nat → Nat) (p : Nat → Bool) :
    ∀ l : List Nat, List.Pairwise (fun a b => f b ≤ f a) l →
      ∀ w, l.find? p = some w → ∀ v ∈ l, p v = true → f v ≤ f w := by
  intro l
  induction l with
  | nil =>
    intro _ w hw
    exact absurd hw (by simp)
  | cons a l ih =>
    intro hp w hw v hv hpv
    by_cases ha : p a = true
    · rw [List.find?_cons_of_pos _ ha] at hw
      rcases Option.some.inj hw with rfl
      rcases List.mem_cons.mp hv with rfl | hv2
      · exact le_rfl
      · exact (List.pairwise_cons.mp hp).1 v hv2
    · rw [List.find?_cons_of_neg _ ha] at hw
      rcases List.mem_cons.mp hv with rfl | hv2
      · exact absurd hpv ha
      · exact ih (List.pairwise_cons.mp hp).2 w hw v hv2 hpv

/-- Claim C7 fails on the code: get_final_root_synset walks the REVERSED
chain (from the most general ancestor downward), so on gD (every chain
element below the threshold) it returns the top synset 0 while the spec's
walk upward from the initial concept yields 2 (or 1 when the initial
concept itself is excluded); and on gB, whose only chain element has
specificity exactly 700, it returns nothing (Python None). -/
theorem get_final_root_counterexample :
    get_final_root_synset gD 2 = some 0 ∧
    get_final_root_specModel gD 2 = some 2 ∧
    (hypernym_chain gD 2).tail.find?
      (fun w => decide (specCount gD w < 700)) = some 1 ∧
    get_final_root_synset gB 0 = none := by
  refine ⟨by decide, by decide, by decide, ?_⟩
  have hchain : hypernym_chain gB 0 = [0] := hypernym_chain_nil gB 0 rfl
  unfold get_final_root_synset
  rw [hchain]
  have hrev : ([0] : List Nat).reverse = [0] := rfl
  rw [hrev, List.find?_cons_of_neg]
  · rfl
  · simp [specCount_gB]

/-- Claim C7 (amended): get_final_root_synset returns the MOST GENERAL
chain element whose specificity is below 700: when it returns a synset,
that synset is on the chain, below the threshold, and of maximal
specificity among all chain elements below the threshold (the broadest
qualifying ancestor); it returns nothing exactly when every chain element
has specificity at least 700. -/
theorem get_final_root_synset_correct (g : WordNet) (c : Nat) :
    (get_final_root_synset g c = none ↔
      ∀ w ∈ hypernym_chain g c, 700 ≤ specCount g w) ∧
    (∀ w, get_final_root_synset g c = some w →
      w ∈ hypernym_chain g c ∧ specCount g w < 700 ∧
      ∀ v ∈ hypernym_chain g c, specCount g v < 700 →
        specCount g v ≤ specCount g w) := by
  constructor
  · unfold get_final_root_synset
    rw [List.find?_eq_none]
    constructor
    · intro h w hw
      have := h w (List.mem_reverse.mpr hw)
      simp at this
      omega
    · intro h w hw
      have := h w (List.mem_reverse.mp hw)
      simp
      omega
  · intro w hw
    unfold get_final_root_synset at hw
    have hmem : w ∈ (hypernym_chain g c).reverse := List.mem_of_find?_eq_some hw
    have hpw := List.find?_some hw
    have hrevpair : List.Pairwise (fun a b => specCount g b ≤ specCount g a)
        (hypernym_chain g c).reverse := by
      rw [List.pairwise_reverse]
      exact hypernym_chain_pairwise g c
    refine ⟨List.mem_reverse.mp hmem, by simpa using hpw, ?_⟩
    intro v hv hvlt
    exact find?_min_of_pairwise (specCount g) _ _ hrevpair w hw v
      (List.mem_reverse.mpr hv) (by simpa using hvlt)

/-- Witness for get_final_root_synset_correct on gD starting at 2: the
code returns synset 0, which is on the chain, below the threshold, and of
maximal specificity among qualifying chain elements. -/
theorem get_final_root_synset_correct_witness :
    0 ∈ hypernym_chain gD 2 ∧ specCount gD 0 < 700 ∧
    ∀ v ∈ hypernym_chain gD 2, specCount gD v < 700 →
      specCount gD v ≤ specCount gD 0 :=
  (get_final_root_synset_correct gD 2).2 0 (by decide)

theorem commonHypernymsOf_lt_n (g : WordNet) (w : List Char)
    (ws : List (List Char)) :
    ∀ t ∈ commonHypernymsOf g w ws, t < g.n := by
  intro t ht
  rcases (mem_commonHypernymsOf g w ws t).mp ht with ⟨h1, _⟩
  rcases (mem_get_all_hypernyms_word g w t).mp h1 with ⟨x, _, hx⟩
  exact mem_allHypernyms_lt_n g x t hx

/-- Claim C10: on a non-empty word list, find_lowest_common_ancestor
returns a scored pair whose synset is a hypernym shared by every word
(reachable from at least one sense of each) of minimal specificity among
all shared hypernyms; when no hypernym is shared it returns entity.n.01
with its specificity. -/
theorem find_lowest_common_ancestor_correct (g : WordNet)
    (words : List (List Char)) (hne : words ≠ []) :
    ∃ sc hy, find_lowest_common_ancestor g words = some (sc, hy) ∧
      sc = specCount g hy ∧
      (commonHypernymsOf g words.headI words.tail = ∅ → hy = g.entity) ∧
      (commonHypernymsOf g words.headI words.tail ≠ ∅ →
        (∀ w ∈ words, ∃ x ∈ g.wordSenses w, hy ∈ allHypernyms g x) ∧
        ∀ h2, (∀ w ∈ words, ∃ x ∈ g.wordSenses w, h2 ∈ allHypernyms g x) →
          specCount g hy ≤ specCount g h2) := by
  rcases words with _ | ⟨w, ws⟩
  · exact absurd rfl hne
  simp only [List.headI, List.tail_cons]
  by_cases hcard : (commonHypernymsOf g w ws).card = 0
  · have hempty : commonHypernymsOf g w ws = ∅ := Finset.card_eq_zero.mp hcard
    refine ⟨specCount g g.entity, g.entity, ?_, rfl, fun _ => rfl,
      fun hni => absurd hempty hni⟩
    unfold find_lowest_common_ancestor
    dsimp only
    rw [if_pos hcard]
  · have hnonempty : (commonHypernymsOf g w ws).Nonempty :=
      Finset.card_pos.mp (Nat.pos_of_ne_zero hcard)
    rcases hnonempty with ⟨t0, ht0⟩
    have hbound := commonHypernymsOf_lt_n g w ws
    have ht0l : t0 ∈ synsetList g (commonHypernymsOf g w ws) :=
      (mem_synsetList g _ hbound t0).mpr ht0
    have hscored_ne :
        ((synsetList g (commonHypernymsOf g w ws)).map
          (fun h => (specCount g h, h))) ≠ [] := by
      intro hnil
      have : (specCount g t0, t0) ∈
          (synsetList g (commonHypernymsOf g w ws)).map
            (fun h => (specCount g h, h)) :=
        List.mem_map.mpr ⟨t0, ht0l, rfl⟩
      rw [hnil] at this
      exact absurd this (List.not_mem_nil _)
    have hsorted_ne :
        List.insertionSort pairR
          ((synsetList g (commonHypernymsOf g w ws)).map
            (fun h => (specCount g h, h))) ≠ [] := by
      intro hnil
      have hperm := List.perm_insertionSort pairR
        ((synsetList g (commonHypernymsOf g w ws)).map
          (fun h => (specCount g h, h)))
      rw [hnil] at hperm
      exact hscored_ne hperm.symm.eq_nil
    rcases hL : List.insertionSort pairR
        ((synsetList g (commonHypernymsOf g w ws)).map
          (fun h => (specCount g h, h))) with _ | ⟨p, rest⟩
    · exact absurd hL hsorted_ne
    have hpmem : p ∈ (synsetList g (commonHypernymsOf g w ws)).map
        (fun h => (specCount g h, h)) := by
      have : p ∈ List.insertionSort pairR
          ((synsetList g (commonHypernymsOf g w ws)).map
            (fun h => (specCount g h, h))) := by
        rw [hL]
        exact List.mem_cons_self p rest
      exact (List.mem_insertionSort pairR).mp this
    rcases List.mem_map.mp hpmem with ⟨h0, h0mem, hph0⟩
    have h0common : h0 ∈ commonHypernymsOf g w ws :=
      (mem_synsetList g _ hbound h0).mp h0mem
    have hresult : find_lowest_common_ancestor g (w :: ws) = some p := by
      unfold find_lowest_common_ancestor
      dsimp only
      rw [if_neg hcard, hL]
      rfl
    rcases (mem_commonHypernymsOf g w ws h0).mp h0common with ⟨hw0, hws0⟩
    refine ⟨specCount g h0, h0, ?_, rfl, ?_, ?_⟩
    · rw [hresult, ← hph0]
    · intro hempty
      exact absurd hempty (Finset.nonempty_iff_ne_empty.mp ⟨h0, h0common⟩)
    · intro _
      constructor
      · intro u hu
        rcases List.mem_cons.mp hu with rfl | hu2
        · exact (mem_get_all_hypernyms_word g u h0).mp hw0
        · exact (mem_get_all_hypernyms_word g u h0).mp (hws0 u hu2)
      · intro h2 hshared
        have h2common : h2 ∈ commonHypernymsOf g w ws := by
          refine (mem_commonHypernymsOf g w ws h2).mpr ⟨?_, ?_⟩
          · exact (mem_get_all_hypernyms_word g w h2).mpr
              (hshared w (List.mem_cons_self w ws))
          · intro u hu
            exact (mem_get_all_hypernyms_word g u h2).mpr
              (hshared u (List.mem_cons_of_mem w hu))
        have h2l : h2 ∈ synsetList g (commonHypernymsOf g w ws) :=
          (mem_synsetList g _ hbound h2).mpr h2common
        have h2sorted : (specCount g h2, h2) ∈ List.insertionSort pairR
            ((synsetList g (commonHypernymsOf g w ws)).map
              (fun h => (specCount g h, h))) :=
          (List.mem_insertionSort pairR).mpr (List.mem_map.mpr ⟨h2, h2l, rfl⟩)
        rw [hL] at h2sorted
        have hsorted : List.Sorted pairR (p :: rest) := by
          rw [← hL]
          exact List.sorted_insertionSort pairR _
        rcases List.mem_cons.mp h2sorted with heq | hrest
        · have : specCount g h0 = specCount g h2 := by
            rw [← hph0] at heq
            exact (Prod.mk.injEq _ _ _ _).mp heq.symm |>.1
          omega
        · have hrel : pairR p (specCount g h2, h2) :=
            (List.sorted_cons.mp hsorted).1 _ hrest
          rw [← hph0] at hrel
          rcases hrel with hlt | ⟨heq, _⟩
          · exact le_of_lt hlt
          · exact le_of_eq heq

/-- Witness for find_lowest_common_ancestor_correct on gD with the words
x (sense 2) and y (sense 3): their shared hypernyms are 0 and 1, and 1 has
the smaller specificity. -/
theorem find_lowest_common_ancestor_correct_witness :
    ∃ sc hy, find_lowest_common_ancestor gD [['x'], ['y']] = some (sc, hy) ∧
      sc = specCount gD hy ∧
      (commonHypernymsOf gD [['x'], ['y']].headI [['x'], ['y']].tail = ∅ →
        hy = gD.entity) ∧
      (commonHypernymsOf gD [['x'], ['y']].headI [['x'], ['y']].tail ≠ ∅ →
        (∀ w ∈ [['x'], ['y']], ∃ x ∈ gD.wordSenses w, hy ∈ allHypernyms gD x) ∧
        ∀ h2, (∀ w ∈ [['x'], ['y']], ∃ x ∈ gD.wordSenses w,
            h2 ∈ allHypernyms gD x) →
          specCount gD hy ≤ specCount gD h2) :=
  find_lowest_common_ancestor_correct gD [['x'], ['y']] (by simp)
